import Mathlib

/-!
# Verification of the TensorLog CSR matrix-utility kernel (`mutil.py`)

This file gives a shallow embedding of the sparse-matrix utilities of
`src/mutil.py` and proves/refutes the specification claims about them.

Modelling conventions:
* A `scipy.sparse.csr_matrix` is modelled by the `CSR` structure below: a
  shape `(rows, cols)` together with the three CSR arrays `values`
  (`mat.data`), `colIndices` (`mat.indices`) and `rowPtr` (`mat.indptr`),
  modelled as Lean lists.  Matrix values (Python floats) are modelled as
  rationals `ℚ`; all operations under study are exact field arithmetic
  except for `math.exp` inside `softmax`, which is modelled by an abstract
  function parameter (see `softMaxRow`).
* Python slices `a[lo:hi]` are modelled by `slice`.
* A Python function that raises an exception on some input is modelled with
  an `Option`/dedicated result type whose "absent" constructor marks the
  raising run.
-/

namespace Mutil

/-- Python slice `l[a:b]` (for `a ≤ b`; out-of-range bounds truncate, as in
Python). -/
def slice (l : List α) (a b : ℕ) : List α :=
  (l.drop a).take (b - a)

/-- Python `max` over a list of rationals (the source applies it only to
nonempty slices; on `[]` Python raises, here we return a junk value `0` and
theorems carry a nonemptiness hypothesis instead). -/
def listMaxQ : List ℚ → ℚ
  | [] => 0
  | [x] => x
  | x :: y :: xs => max x (listMaxQ (y :: xs))

/-- `NP.max` over a list of naturals (column indices); junk value `0` on `[]`
(where numpy raises instead, see `densify`). -/
def listMaxN : List ℕ → ℕ
  | [] => 0
  | [x] => x
  | x :: y :: xs => max x (listMaxN (y :: xs))

/-- `NP.min` over a list of naturals (column indices); junk value `0` on `[]`
(where numpy raises instead, see `densify`). -/
def listMinN : List ℕ → ℕ
  | [] => 0
  | [x] => x
  | x :: y :: xs => min x (listMinN (y :: xs))

/-- A `scipy.sparse.csr_matrix`: shape plus the `data` / `indices` / `indptr`
arrays.  Nothing here enforces well-formedness; `wellFormed` states it. -/
structure CSR where
  rows : ℕ
  cols : ℕ
  values : List ℚ
  colIndices : List ℕ
  rowPtr : List ℕ
deriving DecidableEq, Repr

/-- `mat.nnz`: the number of stored entries. -/
def nnz (m : CSR) : ℕ := m.values.length

/-- `mat.indptr[i]` (junk `0` when out of range, which well-formedness
excludes for `i ≤ rows`). -/
def ptrAt (m : CSR) (i : ℕ) : ℕ := m.rowPtr.getD i 0

/-- The slice `mat.data[indptr[i] : indptr[i+1]]` holding row `i`'s values. -/
def valSlice (m : CSR) (i : ℕ) : List ℚ := slice m.values (ptrAt m i) (ptrAt m (i + 1))

/-- The slice `mat.indices[indptr[i] : indptr[i+1]]` holding row `i`'s
column indices. -/
def colSlice (m : CSR) (i : ℕ) : List ℕ := slice m.colIndices (ptrAt m i) (ptrAt m (i + 1))

/-- Row `i` as the list of its stored `(column, value)` pairs, in storage
order. -/
def rowEntries (m : CSR) (i : ℕ) : List (ℕ × ℚ) := (colSlice m i).zip (valSlice m i)

/-- The CSR structural invariants (spec §3): `rowPtr` has length `rows + 1`,
starts at `0`, ends at `nnz`, is non-decreasing; `colIndices` is parallel to
`values`; every column index is in `[0, cols)`. -/
def wellFormed (m : CSR) : Prop :=
  m.rowPtr.length = m.rows + 1 ∧
  ptrAt m 0 = 0 ∧
  ptrAt m m.rows = nnz m ∧
  m.colIndices.length = nnz m ∧
  m.rowPtr.Pairwise (· ≤ ·) ∧
  ∀ c ∈ m.colIndices, c < m.cols

instance : DecidablePred wellFormed := fun m =>
  inferInstanceAs (Decidable (m.rowPtr.length = m.rows + 1 ∧ ptrAt m 0 = 0 ∧
    ptrAt m m.rows = nnz m ∧ m.colIndices.length = nnz m ∧
    m.rowPtr.Pairwise (· ≤ ·) ∧ ∀ c ∈ m.colIndices, c < m.cols))

/-- Each row's stored entries are sorted ascending by column (non-strict). -/
def rowsSorted (m : CSR) : Prop :=
  ∀ i < m.rows, (rowEntries m i).Sorted (fun a b => a.1 ≤ b.1)

instance : DecidablePred rowsSorted := fun m =>
  inferInstanceAs
    (Decidable (∀ i < m.rows, (rowEntries m i).Sorted (fun a b : ℕ × ℚ => a.1 ≤ b.1)))

/-- Each row's stored entries have strictly increasing column indices
(sorted and duplicate-free: canonical CSR form). -/
def rowsStrictSorted (m : CSR) : Prop :=
  ∀ i < m.rows, (rowEntries m i).Sorted (fun a b => a.1 < b.1)

instance : DecidablePred rowsStrictSorted := fun m =>
  inferInstanceAs
    (Decidable (∀ i < m.rows, (rowEntries m i).Sorted (fun a b : ℕ × ℚ => a.1 < b.1)))

/-! ## CSR Invariant Layer (`checkCSR`, `mutil.py` lines 37-40)

`checkCSR(mat, context)` runs `assert isinstance(mat, SS.csr_matrix)` when
the process-wide `conf.careful` flag is set.  A Python object handed to it is
modelled as either a `csr_matrix` instance (with whatever arrays it happens
to carry, well-formed or not) or some other object. -/

/-- A Python value passed to `checkCSR`: either a `scipy.sparse.csr_matrix`
instance or any other object. -/
inductive PyObj where
  | csr (m : CSR)
  | nonCSR
deriving DecidableEq

/-- `checkCSR(mat, context)`: when `careful` is set, asserts
`isinstance(mat, SS.csr_matrix)`; returns `true` when the call passes
(no exception) and `false` when the assertion fires.  The `context` string
only affects the error message, which is not modelled. -/
def checkCSR (careful : Bool) (mat : PyObj) : Bool :=
  if careful then
    match mat with
    | .csr _ => true
    | .nonCSR => false
  else true

/-- A `csr_matrix` instance whose `rowPtr` was intentionally corrupted:
`rows = 1` requires `rowPtr` of length 2, but it has been shortened by one
to `[0]`. -/
def corruptedCSR : CSR :=
  { rows := 1, cols := 1, values := [1], colIndices := [0], rowPtr := [0] }

/-- C1, counterexample.  The claim says `checkStructure` fails for every
intentionally corrupted matrix (e.g. `rowPtr` shortened by one).  But
`checkCSR` only checks `isinstance`, so with `careful` enabled it passes on
a `csr_matrix` instance whose `rowPtr` is one entry short — a matrix that
violates the structural invariants. -/
theorem checkCSR_passes_corrupted :
    checkCSR true (.csr corruptedCSR) = true ∧ ¬ wellFormed corruptedCSR := by
  decide

/-- C1, amended.  With `careful` enabled, `checkCSR` fails exactly for
objects that are not `csr_matrix` instances; it accepts every `csr_matrix`
instance without inspecting its arrays (so corrupted arrays pass), and with
`careful` disabled it is a no-op that accepts everything. -/
theorem checkCSR_spec :
    (∀ m : CSR, checkCSR true (.csr m) = true) ∧
    checkCSR true .nonCSR = false ∧
    (∀ o : PyObj, checkCSR false o = true) := by
  refine ⟨fun m => rfl, rfl, fun o => rfl⟩

/-! ## List and pointer lemmas -/

theorem slice_length {l : List α} {a b : ℕ} (hb : b ≤ l.length) :
    (slice l a b).length = b - a := by
  simp only [slice, List.length_take, List.length_drop]
  omega

theorem slice_append {l : List α} {a b c : ℕ} (hab : a ≤ b) (hbc : b ≤ c) :
    slice l a b ++ slice l b c = slice l a c := by
  unfold slice
  rw [show c - a = (b - a) + (c - b) by omega, List.take_add, List.drop_drop,
    show a + (b - a) = b by omega]

theorem slice_self (l : List α) : slice l 0 l.length = l := by
  simp [slice]

theorem slice_nil (l : List α) (a : ℕ) : slice l a a = [] := by
  simp [slice]

theorem slice_append_block (X B Y : List α) :
    slice (X ++ B ++ Y) X.length (X.length + B.length) = B := by
  have h : X.length + B.length - X.length = B.length := by omega
  rw [slice, List.append_assoc, List.drop_left, h, List.take_left]

theorem mem_of_mem_slice {l : List α} {a b : ℕ} {x : α} (h : x ∈ slice l a b) : x ∈ l := by
  unfold slice at h
  exact List.mem_of_mem_drop (List.mem_of_mem_take h)

theorem getD_map_range (f : ℕ → α) (d : α) {n i : ℕ} (h : i < n) :
    ((List.range n).map f).getD i d = f i := by
  have hl : i < ((List.range n).map f).length := by simpa using h
  rw [List.getD_eq_getElem _ _ hl]
  simp

theorem step_mono {p : ℕ → ℕ} {n : ℕ} (h : ∀ i < n, p i ≤ p (i + 1)) :
    ∀ {i j : ℕ}, i ≤ j → j ≤ n → p i ≤ p j := by
  intro i j hij hj
  induction j with
  | zero =>
      have : i = 0 := by omega
      simp [this]
  | succ k ih =>
      rcases Nat.eq_or_lt_of_le hij with rfl | hlt
      · exact le_refl _
      · exact le_trans (ih (by omega) (by omega)) (h k (by omega))

theorem flatMap_slices (l : List α) (p : ℕ → ℕ) :
    ∀ n, (∀ i < n, p i ≤ p (i + 1)) →
      (List.range n).flatMap (fun i => slice l (p i) (p (i + 1))) = slice l (p 0) (p n) := by
  intro n
  induction n with
  | zero => simp [slice]
  | succ m ih =>
      intro h
      rw [List.range_succ, List.flatMap_append, ih (fun i hi => h i (by omega))]
      simp only [List.flatMap_cons, List.flatMap_nil, List.append_nil]
      exact slice_append (step_mono h (Nat.zero_le m) (by omega)) (h m (by omega))

theorem flatMap_range_decomp (f : ℕ → List α) {n i : ℕ} (hi : i < n) :
    (List.range n).flatMap f =
      (List.range i).flatMap f ++ f i ++
        ((List.range (n - i - 1)).map (fun k => i + 1 + k)).flatMap f := by
  conv_lhs => rw [show n = (i + 1) + (n - i - 1) by omega]
  rw [List.range_add, List.flatMap_append, List.range_succ, List.flatMap_append]
  simp [List.append_assoc]

theorem slice_flatMap_range (f : ℕ → List α) {n i : ℕ} (hi : i < n)
    {a b : ℕ} (ha : a = ((List.range i).flatMap f).length) (hb : b = a + (f i).length) :
    slice ((List.range n).flatMap f) a b = f i := by
  subst ha
  subst hb
  rw [flatMap_range_decomp f hi]
  exact slice_append_block _ _ _

theorem length_flatMap_const (f : ℕ → List α) (k : ℕ) (hf : ∀ j, (f j).length = k) :
    ∀ n, ((List.range n).flatMap f).length = n * k := by
  intro n
  induction n with
  | zero => simp
  | succ m ih =>
      rw [List.range_succ, List.flatMap_append, List.length_append, ih]
      simp only [List.flatMap_cons, List.flatMap_nil, List.append_nil, hf]
      ring

theorem ptr_mono (m : CSR) (hw : wellFormed m) {i j : ℕ} (hij : i ≤ j) (hj : j ≤ m.rows) :
    ptrAt m i ≤ ptrAt m j := by
  obtain ⟨hlen, -, -, -, hchain, -⟩ := hw
  rcases Nat.eq_or_lt_of_le hij with rfl | hlt
  · exact le_refl _
  · have hi' : i < m.rowPtr.length := by omega
    have hj' : j < m.rowPtr.length := by omega
    rw [ptrAt, ptrAt, List.getD_eq_getElem _ _ hi', List.getD_eq_getElem _ _ hj']
    exact List.pairwise_iff_getElem.mp hchain i j hi' hj' hlt

theorem ptr_le_nnz (m : CSR) (hw : wellFormed m) {i : ℕ} (hi : i ≤ m.rows) :
    ptrAt m i ≤ nnz m := by
  have h := ptr_mono m hw hi (le_refl m.rows)
  rw [hw.2.2.1] at h
  exact h

theorem valSlice_length (m : CSR) (hw : wellFormed m) {i : ℕ} (hi : i < m.rows) :
    (valSlice m i).length = ptrAt m (i + 1) - ptrAt m i :=
  slice_length (ptr_le_nnz m hw (by omega))

theorem colSlice_length (m : CSR) (hw : wellFormed m) {i : ℕ} (hi : i < m.rows) :
    (colSlice m i).length = ptrAt m (i + 1) - ptrAt m i := by
  have h : ptrAt m (i + 1) ≤ m.colIndices.length := by
    rw [hw.2.2.2.1]
    exact ptr_le_nnz m hw (by omega)
  exact slice_length h

theorem mem_colSlice_mem (m : CSR) {i c : ℕ} (h : c ∈ colSlice m i) : c ∈ m.colIndices :=
  mem_of_mem_slice h

theorem mem_rowEntries_col_mem (m : CSR) {i : ℕ} {e : ℕ × ℚ} (h : e ∈ rowEntries m i) :
    e.1 ∈ m.colIndices := by
  rcases e with ⟨c, v⟩
  exact mem_colSlice_mem m (List.of_mem_zip h).1

theorem listMinN_le {l : List ℕ} {a : ℕ} (h : a ∈ l) : listMinN l ≤ a := by
  induction l with
  | nil => cases h
  | cons x xs ih =>
      cases xs with
      | nil =>
          simp only [List.mem_singleton] at h
          simp [listMinN, h]
      | cons y ys =>
          rw [listMinN]
          rcases List.mem_cons.mp h with rfl | h'
          · exact min_le_left _ _
          · exact le_trans (min_le_right _ _) (ih h')

theorem le_listMaxN {l : List ℕ} {a : ℕ} (h : a ∈ l) : a ≤ listMaxN l := by
  induction l with
  | nil => cases h
  | cons x xs ih =>
      cases xs with
      | nil =>
          simp only [List.mem_singleton] at h
          simp [listMaxN, h]
      | cons y ys =>
          rw [listMaxN]
          rcases List.mem_cons.mp h with rfl | h'
          · exact le_max_left _ _
          · exact le_trans (ih h') (le_max_right _ _)

/-! ## Dense Bridge (`densify` / `undensify`, `mutil.py` lines 55-79) -/

/-- Result of `densify`: either the run raises (numpy `NP.max`/`NP.min` on an
empty `indices` array raises `ValueError`), or the `(None, None)` "not worth
densifying" sentinel, or the dense band `D` together with the inversion info
`(loIndex, cols)`. -/
inductive DensifyResult where
  | err
  | tooLarge
  | dense (D : List (List ℚ)) (loIndex : ℕ) (origCols : ℕ)
deriving DecidableEq

/-- The dense band built by
`SS.csr_matrix((mat.data, mat.indices-loIndex, mat.indptr), shape).todense()`:
entry `(i, j)` is the sum of the stored values of row `i` whose shifted
column index `c - loIndex` equals `j` (scipy sums duplicate entries; a
canonical matrix has at most one). -/
def denseBand (mat : CSR) (loIndex width : ℕ) : List (List ℚ) :=
  (List.range mat.rows).map (fun i =>
    (List.range width).map (fun j =>
      (((rowEntries mat i).filter (fun e => e.1 - loIndex = j)).map Prod.snd).sum))

/-- `densify(mat, maxExpansion)` (`mutil.py` lines 55-71).  The source first
computes `NP.max(mat.indices)` / `NP.min(mat.indices)`, which raise on an
empty `indices` array (the `.err` case). -/
def densify (mat : CSR) (maxExpansion : ℕ) : DensifyResult :=
  if mat.colIndices = [] then .err
  else
    let hiIndex := listMaxN mat.colIndices
    let loIndex := listMinN mat.colIndices
    let denseSize := (hiIndex - loIndex) * mat.rows
    let sparseSize := mat.rows + 1 + 2 * nnz mat
    if denseSize > sparseSize * maxExpansion then .tooLarge
    else .dense (denseBand mat loIndex (hiIndex - loIndex + 1)) loIndex mat.cols

/-- Total length of the first `k` of a list of rows: the cumulative row
pointer of a matrix assembled from per-row entry lists. -/
def lensum (rs : List (List (ℕ × ℚ))) (k : ℕ) : ℕ :=
  ((rs.take k).map List.length).sum

/-- Build a CSR matrix from a per-row list of `(column, value)` entries:
`values`/`colIndices` are the concatenations and `rowPtr` the cumulative
row lengths.  (This is how `SS.csr_matrix(dense)` lays out its arrays.) -/
def fromRows (rows cols : ℕ) (rs : List (List (ℕ × ℚ))) : CSR :=
  { rows := rows, cols := cols,
    values := rs.flatMap (fun r => r.map Prod.snd),
    colIndices := rs.flatMap (fun r => r.map Prod.fst),
    rowPtr := (List.range (rs.length + 1)).map (lensum rs) }

/-- `undensify(denseMat, info)` (`mutil.py` lines 73-79): re-scan the dense
band for nonzero cells (`SS.csr_matrix(denseMat)` stores exactly the nonzero
cells of each row, in column order), shift column indices back by `loIndex`,
and rebuild a matrix of the original shape.  The final `eliminate_zeros()`
is a no-op on this construction. -/
def undensify (D : List (List ℚ)) (loIndex origCols : ℕ) : CSR :=
  fromRows D.length origCols
    (D.map (fun r => (r.enum.filter (fun p => p.2 ≠ 0)).map (fun p => (p.1 + loIndex, p.2))))

/-- C9.  `densify` applied to a matrix with no stored entries raises
(numpy `NP.max` on the empty `mat.indices` array), rather than returning a
dense band or the sentinel pair. -/
theorem densify_empty_raises (mat : CSR) (k : ℕ) (hw : wellFormed mat)
    (h0 : nnz mat = 0) : densify mat k = .err := by
  have hci : mat.colIndices = [] := by
    have := hw.2.2.2.1
    rw [h0] at this
    exact List.eq_nil_of_length_eq_zero this
  rw [densify, if_pos hci]

/-- C9, witness: a 2×3 well-formed matrix with `nnz = 0`. -/
theorem densify_empty_raises_witness :
    wellFormed { rows := 2, cols := 3, values := [], colIndices := [], rowPtr := [0, 0, 0] } ∧
    nnz { rows := 2, cols := 3, values := [], colIndices := [], rowPtr := [0, 0, 0] } = 0 ∧
    densify { rows := 2, cols := 3, values := [], colIndices := [], rowPtr := [0, 0, 0] } 3 = .err :=
  ⟨by decide, rfl,
    densify_empty_raises _ 3 (by decide) rfl⟩

/-- The value stored in row `i` at (absolute) column `c`: the sum of the
stored entries of row `i` carrying column `c` (at most one in a canonical
matrix; `0` when the position holds no stored entry). -/
def entryAt (m : CSR) (i c : ℕ) : ℚ :=
  (((rowEntries m i).filter (fun e => e.1 = c)).map Prod.snd).sum

/-- C5.  For a matrix with at least one stored entry, `densify` returns the
sentinel exactly when `rows * (hiIndex - loIndex)` exceeds
`maxExpansion * (rows + 1 + 2*nnz)`; otherwise it returns a dense row-major
band of shape `rows × (hiIndex - loIndex + 1)` that is zero-filled except at
stored positions, together with the inversion info `(loIndex, cols)`. -/
theorem densify_spec (mat : CSR) (k : ℕ) (hw : wellFormed mat) (hnz : 0 < nnz mat) :
    (densify mat k = .tooLarge ↔
      mat.rows * (listMaxN mat.colIndices - listMinN mat.colIndices) >
        k * (mat.rows + 1 + 2 * nnz mat)) ∧
    (¬ mat.rows * (listMaxN mat.colIndices - listMinN mat.colIndices) >
        k * (mat.rows + 1 + 2 * nnz mat) →
      ∃ D, densify mat k = .dense D (listMinN mat.colIndices) mat.cols ∧
        D.length = mat.rows ∧
        (∀ r ∈ D, r.length = listMaxN mat.colIndices - listMinN mat.colIndices + 1) ∧
        ∀ i < mat.rows, ∀ j < listMaxN mat.colIndices - listMinN mat.colIndices + 1,
          (D.getD i []).getD j 0 = entryAt mat i (listMinN mat.colIndices + j)) := by
  have hne : mat.colIndices ≠ [] := by
    intro h
    have := hw.2.2.2.1
    rw [h] at this
    simp only [List.length_nil] at this
    omega
  have hcond : ((listMaxN mat.colIndices - listMinN mat.colIndices) * mat.rows >
        (mat.rows + 1 + 2 * nnz mat) * k) ↔
      (mat.rows * (listMaxN mat.colIndices - listMinN mat.colIndices) >
        k * (mat.rows + 1 + 2 * nnz mat)) := by
    rw [Nat.mul_comm (listMaxN mat.colIndices - listMinN mat.colIndices) mat.rows,
      Nat.mul_comm (mat.rows + 1 + 2 * nnz mat) k]
  rw [densify, if_neg hne]
  by_cases hc : (listMaxN mat.colIndices - listMinN mat.colIndices) * mat.rows >
      (mat.rows + 1 + 2 * nnz mat) * k
  · refine ⟨⟨fun _ => hcond.mp hc, fun _ => by simp [hc]⟩, fun h => absurd (hcond.mp hc) h⟩
  · simp only [hc, if_false, if_neg hc]
    constructor
    · constructor
      · intro h
        exact absurd h (by simp)
      · intro h
        exact absurd (hcond.mpr h) hc
    · intro _
      refine ⟨denseBand mat (listMinN mat.colIndices)
        (listMaxN mat.colIndices - listMinN mat.colIndices + 1), rfl, by simp [denseBand], ?_, ?_⟩
      · intro r hr
        rcases List.mem_map.mp hr with ⟨i, -, rfl⟩
        simp
      · intro i hi j hj
        rw [denseBand, getD_map_range _ _ hi, getD_map_range _ _ hj, entryAt]
        congr 2
        apply List.filter_congr
        intro e he
        have hlo : listMinN mat.colIndices ≤ e.1 :=
          listMinN_le (mem_rowEntries_col_mem mat he)
        exact decide_eq_decide.mpr (by omega)

/-- A 1-row matrix spanning columns `0..1000` with only two stored entries
(spec scenario 6): too wide to be worth densifying. -/
def wideMat : CSR :=
  { rows := 1, cols := 1001, values := [1, 2], colIndices := [0, 1000], rowPtr := [0, 2] }

/-- C5, witness: on `wideMat` with `maxExpansion = 3` the dense band would be
far bigger than `3 ×` the sparse size, so the sentinel branch of the proved
equivalence fires. -/
theorem densify_spec_witness :
    wellFormed wideMat ∧ 0 < nnz wideMat ∧ densify wideMat 3 = .tooLarge :=
  ⟨by decide, by decide,
    (densify_spec wideMat 3 (by decide) (by decide)).1.mpr (by decide)⟩

/-! ## Row-Alteration Engine (`alterMatrixRows`, `mutil.py` lines 142-146)

`alterMatrixRows(mat, alterationFun)` calls
`alterationFun(mat.data, mat.indptr[i], mat.indptr[i+1], mat.indices)` for
each row `i` in order, mutating `mat.data` in place.  Every alteration
function in the source rewrites exactly the positions `[lo, hi)` of `data`,
computing the new slice from the old slices `data[lo:hi]` and
`indices[lo:hi]`; such a function is modelled as
`f : List ℚ → List ℕ → List ℚ` from the two old slices to the new values
slice. -/

/-- One alteration call: replace `data[lo:hi]` by
`f data[lo:hi] indices[lo:hi]` (which has the same length for every `f`
drawn from the source). -/
def alterSlice (f : List ℚ → List ℕ → List ℚ) (data : List ℚ) (indices : List ℕ)
    (lo hi : ℕ) : List ℚ :=
  data.take lo ++ f (slice data lo hi) (slice indices lo hi) ++ data.drop hi

/-- The loop of `alterMatrixRows`: successive in-place alterations, one per
`(lo, hi) = (indptr[i], indptr[i+1])` pair. -/
def alterRows (f : List ℚ → List ℕ → List ℚ) (indices : List ℕ) :
    List ℚ → List (ℕ × ℕ) → List ℚ
  | data, [] => data
  | data, (lo, hi) :: rest => alterRows f indices (alterSlice f data indices lo hi) rest

/-- The `(indptr[i], indptr[i+1])` pairs visited by the loop. -/
def rowRanges (m : CSR) : List (ℕ × ℕ) :=
  (List.range m.rows).map (fun i => (ptrAt m i, ptrAt m (i + 1)))

/-- `alterMatrixRows(mat, alterationFun)`: mutates `mat.data`; shape,
`indices` and `indptr` are untouched. -/
def alterMatrixRows (m : CSR) (f : List ℚ → List ℕ → List ℚ) : CSR :=
  { m with values := alterRows f m.colIndices m.values (rowRanges m) }

/-! ## Broadcast Engine: `broadcastAndComponentwiseMultiply`
(`mutil.py` lines 178-202) -/

/-- Python `vd = dict((v.indices[j], v.data[j]) for j in ...)` followed by
`vd.get(c, 0.0)`: the last pair carrying key `c` wins, `0` if none does. -/
def dictGet (l : List (ℕ × ℚ)) (c : ℕ) : ℚ :=
  match (l.filter (fun e => e.1 = c)).getLast? with
  | some e => e.2
  | none => 0

/-- `multiplyByVAlteration`: multiply each stored value by the dictionary
value for its column (`0.0` when the column is absent from `vd`). -/
def multiplyByVRow (vd : List (ℕ × ℚ)) (vals : List ℚ) (inds : List ℕ) : List ℚ :=
  (vals.zip inds).map (fun p => p.1 * dictGet vd p.2)

/-- `multiplyByBroadcastRowVec(m, v)` (`mutil.py` lines 182-190): convert
the slice `v.indptr[0]:v.indptr[1]` — row 0 of `v` — to a dictionary, copy
`m`, and rewrite every row of the copy with `multiplyByVAlteration`. -/
def multiplyByBroadcastRowVec (m v : CSR) : CSR :=
  alterMatrixRows m (multiplyByVRow (rowEntries v 0))

/-- `broadcastAndComponentwiseMultiply(m1, m2)` (`mutil.py` lines 178-202).
`mul` abstracts the scipy library call `m1.multiply(m2)` taken when the row
counts are equal; `none` models the `assert r1==1 or r2==1` failing.  Note
that the source passes `(m1, m2)` — in that order — to
`multiplyByBroadcastRowVec` in *both* broadcast branches, so when
`r1 == 1` the roles of matrix and broadcast vector are swapped. -/
def broadcastAndComponentwiseMultiply (mul : CSR → CSR → CSR) (m1 m2 : CSR) :
    Option CSR :=
  if m1.rows = m2.rows then some (mul m1 m2)
  else if m1.rows = 1 then some (multiplyByBroadcastRowVec m1 m2)
  else if m2.rows = 1 then some (multiplyByBroadcastRowVec m1 m2)
  else none

/-- `m1` of the spec example: a single row with `3.0` at column 1. -/
def cmM1 : CSR :=
  { rows := 1, cols := 2, values := [3], colIndices := [1], rowPtr := [0, 1] }

/-- `m2` of the spec example: two rows with `4.0` and `5.0` at column 1. -/
def cmM2 : CSR :=
  { rows := 2, cols := 2, values := [4, 5], colIndices := [1, 1], rowPtr := [0, 1, 2] }

/-- C2.  On the spec's own example (`m1` a single row `{col1: 3.0}`, `m2`
two rows with `4.0` and `5.0` at column 1) the code returns the **1-row**
matrix `{col1: 12.0}` — `m1` rewritten against a dictionary built from
`m2`'s first row only — for every interpretation of the library multiply,
instead of the claimed 2-row result `{col1: 12.0}, {col1: 15.0}`: the
`r1==1` branch passes the arguments to `multiplyByBroadcastRowVec` in the
wrong order. -/
theorem broadcastMultiply_r1_bug (mul : CSR → CSR → CSR) :
    broadcastAndComponentwiseMultiply mul cmM1 cmM2 =
      some { rows := 1, cols := 2, values := [12], colIndices := [1], rowPtr := [0, 1] } ∧
    (multiplyByBroadcastRowVec cmM1 cmM2).rows ≠ cmM2.rows := by
  have h : broadcastAndComponentwiseMultiply mul cmM1 cmM2 =
      some (multiplyByBroadcastRowVec cmM1 cmM2) := by
    rw [broadcastAndComponentwiseMultiply, if_neg (by decide),
      if_pos (show cmM1.rows = 1 from rfl)]
  rw [h]
  refine ⟨?_, by decide⟩
  congr 1
  norm_num [multiplyByBroadcastRowVec, alterMatrixRows, rowRanges, alterRows, alterSlice,
    multiplyByVRow, dictGet, rowEntries, colSlice, valSlice, slice, ptrAt, cmM1, cmM2,
    List.range_succ]

/-! ## Row tiling (`repeat`, `mutil.py` lines 132-140) -/

/-- `repeat(row, n)`: tile the single row `n` times.  `none` models a raising
run: the `assert numRows(row)==1`, or Python's
`range(0, numNZCols*n+1, numNZCols)` raising `ValueError` because the step
`numNZCols` is zero.  For a positive step `c` the range is the multiples
`0, c, …, n*c`. -/
def repeatRow (row : CSR) (n : ℕ) : Option CSR :=
  if row.rows ≠ 1 then none
  else
    let numNZCols := ptrAt row 1
    if numNZCols = 0 then none
    else some
      { rows := n, cols := row.cols,
        values := (List.range n).flatMap (fun _ => row.values),
        colIndices := (List.range n).flatMap (fun _ => row.colIndices),
        rowPtr := (List.range (n + 1)).map (fun i => i * numNZCols) }

/-- C10.  `repeat` on a single-row matrix with no stored entries raises
(`range` step of zero) instead of returning an `n`-row all-empty matrix. -/
theorem repeatRow_empty_raises (row : CSR) (n : ℕ) (hw : wellFormed row)
    (h1 : row.rows = 1) (h0 : nnz row = 0) : repeatRow row n = none := by
  have hp : ptrAt row 1 = 0 := by
    have := hw.2.2.1
    rw [h1] at this
    rw [this, h0]
  unfold repeatRow
  rw [if_neg (by simp [h1]), hp]
  simp

/-! ## Broadcast Engine: `broadcastAndWeightByRowSum` (`mutil.py` 204-246) -/

/-- `m2.data[m2.indptr[i]:m2.indptr[i+1]].sum()`: sum of row `i`'s stored
values. -/
def rowSum (m : CSR) (i : ℕ) : ℚ := (valSlice m i).sum

/-- `m2.sum()`: the sum of every stored value. -/
def totalSum (m : CSR) : ℚ := m.values.sum

/-- The in-place loop of the equal-row-count branch: for each row `i`,
`result.data[indptr[i]:indptr[i+1]] *= rowSum m2 i`. -/
def scaleRowsData (m1 m2 : CSR) : List ℚ :=
  (List.range m1.rows).foldl
    (fun data i =>
      List.take (ptrAt m1 i) data ++
        (slice data (ptrAt m1 i) (ptrAt m1 (i + 1))).map (fun v => v * rowSum m2 i) ++
        List.drop (ptrAt m1 (i + 1)) data)
    m1.values

/-- `broadcastAndWeightByRowSum(m1, m2)` (`mutil.py` lines 204-246).
The `r2 == 1` branch is `m1 * m2.sum()` (the `try/except` only logs and
re-raises, so its value is the plain product); the broadcast branch
allocates `nnz(m1) * r2` cells and fills one scaled copy of `m1`'s single
row per row of `m2`, with `indptr[i+1] = indptr[i] + nnz1`; the final branch
asserts `r1 == r2` (`none` models the assertion failing) and scales `m1`'s
rows in place.

`weightBroadcast` is the matrix built by the broadcast branch
(`mutil.py` lines 218-239). -/
def weightBroadcast (m1 m2 : CSR) : CSR :=
  { rows := m2.rows, cols := m2.cols,
    values := (List.range m2.rows).flatMap
      (fun i => m1.values.map (fun v => v * rowSum m2 i)),
    colIndices := (List.range m2.rows).flatMap (fun _ => m1.colIndices),
    rowPtr := (List.range (m2.rows + 1)).map (fun i => i * nnz m1) }

def broadcastAndWeightByRowSum (m1 m2 : CSR) : Option CSR :=
  if m2.rows = 1 then
    some { m1 with values := m1.values.map (fun v => v * totalSum m2) }
  else if m1.rows = 1 ∧ 1 < m2.rows then
    some (weightBroadcast m1 m2)
  else if m1.rows = m2.rows then
    some { m1 with values := scaleRowsData m1 m2 }
  else none

/-- C3.  In the broadcast case (`rows m1 = 1 < rows m2`),
`broadcastAndWeightByRowSum` returns a matrix with `rows m2` rows whose
row `i` is `m1`'s single row scaled by the sum of `m2`'s row `i`, whose
`values`/`colIndices` arrays have length `nnz m1 * rows m2`, and whose
`rowPtr` consists of the successive multiples of `nnz m1`. -/
theorem broadcastAndWeightByRowSum_broadcast (m1 m2 : CSR) (hw1 : wellFormed m1)
    (hr1 : m1.rows = 1) (hr2 : 1 < m2.rows) :
    ∃ r, broadcastAndWeightByRowSum m1 m2 = some r ∧
      r.rows = m2.rows ∧ r.cols = m2.cols ∧
      r.values.length = nnz m1 * m2.rows ∧
      r.colIndices.length = nnz m1 * m2.rows ∧
      r.rowPtr = (List.range (m2.rows + 1)).map (fun i => i * nnz m1) ∧
      ∀ i < m2.rows, rowEntries r i =
        (rowEntries m1 0).map (fun e => (e.1, e.2 * rowSum m2 i)) := by
  obtain ⟨hlen, h0, hlast, hci, hchain, hcols⟩ := hw1
  have hvlen : ∀ i, (m1.values.map (fun v => v * rowSum m2 i)).length = nnz m1 := by
    intro i
    simp [nnz]
  have hclen : ∀ i : ℕ, ((fun _ : ℕ => m1.colIndices) i).length = nnz m1 := fun i => hci
  rw [broadcastAndWeightByRowSum, if_neg (by omega), if_pos ⟨hr1, hr2⟩]
  refine ⟨_, rfl, rfl, rfl, ?_, ?_, rfl, ?_⟩
  · show ((List.range m2.rows).flatMap
      (fun i => m1.values.map (fun v => v * rowSum m2 i))).length = nnz m1 * m2.rows
    rw [length_flatMap_const _ (nnz m1) hvlen, Nat.mul_comm]
  · show ((List.range m2.rows).flatMap (fun _ => m1.colIndices)).length = nnz m1 * m2.rows
    rw [length_flatMap_const _ (nnz m1) hclen, Nat.mul_comm]
  · intro i hi
    have hptrA : ptrAt (weightBroadcast m1 m2) i = i * nnz m1 :=
      getD_map_range _ _ (by omega)
    have hptrB : ptrAt (weightBroadcast m1 m2) (i + 1) = (i + 1) * nnz m1 :=
      getD_map_range _ _ (by omega)
    rw [rowEntries, colSlice, valSlice, hptrA, hptrB]
    simp only [weightBroadcast]
    have hcs : slice ((List.range m2.rows).flatMap (fun _ => m1.colIndices))
        (i * nnz m1) ((i + 1) * nnz m1) = m1.colIndices := by
      apply slice_flatMap_range _ hi
      · rw [length_flatMap_const _ (nnz m1) hclen]
      · rw [hci]
        ring
    have hvs : slice ((List.range m2.rows).flatMap
          (fun j => m1.values.map (fun v => v * rowSum m2 j)))
        (i * nnz m1) ((i + 1) * nnz m1) = m1.values.map (fun v => v * rowSum m2 i) := by
      apply slice_flatMap_range _ hi
      · rw [length_flatMap_const _ (nnz m1) hvlen]
      · rw [hvlen i]
        ring
    rw [hcs, hvs]
    have hrow0c : colSlice m1 0 = m1.colIndices := by
      rw [colSlice, h0]
      have : ptrAt m1 (0 + 1) = m1.colIndices.length := by
        rw [hci]
        rw [← hlast, hr1]
      rw [this, slice_self]
    have hrow0v : valSlice m1 0 = m1.values := by
      rw [valSlice, h0]
      have : ptrAt m1 (0 + 1) = m1.values.length := by
        show ptrAt m1 1 = nnz m1
        rw [← hlast, hr1]
      rw [this, slice_self]
    rw [rowEntries, hrow0c, hrow0v, List.zip_map_right]
    apply List.map_congr_left
    intro e _
    cases e
    rfl

/-- The spec's example operands: `m1` is the single row `[2,0,4]`,
`m2` has two rows with row-sums `1.0` and `2.0`. -/
def wrsM1 : CSR :=
  { rows := 1, cols := 3, values := [2, 4], colIndices := [0, 2], rowPtr := [0, 2] }

/-- See `wrsM1`. -/
def wrsM2 : CSR :=
  { rows := 2, cols := 3, values := [1, 2], colIndices := [0, 0], rowPtr := [0, 1, 2] }

/-- C3, witness: the spec example.  Rows of the result are `[2,0,4]` scaled
by `1.0` and `2.0`. -/
theorem broadcastAndWeightByRowSum_broadcast_witness :
    wellFormed wrsM1 ∧ wrsM1.rows = 1 ∧ 1 < wrsM2.rows ∧
    (∃ r, broadcastAndWeightByRowSum wrsM1 wrsM2 = some r ∧
      r.rows = wrsM2.rows ∧ r.cols = wrsM2.cols ∧
      r.values.length = nnz wrsM1 * wrsM2.rows ∧
      r.colIndices.length = nnz wrsM1 * wrsM2.rows ∧
      r.rowPtr = (List.range (wrsM2.rows + 1)).map (fun i => i * nnz wrsM1) ∧
      ∀ i < wrsM2.rows, rowEntries r i =
        (rowEntries wrsM1 0).map (fun e => (e.1, e.2 * rowSum wrsM2 i))) :=
  ⟨by decide, rfl, by decide,
    broadcastAndWeightByRowSum_broadcast wrsM1 wrsM2 (by decide) rfl (by decide)⟩

/-- C10, witness: the 1×3 empty row, tiled twice. -/
theorem repeatRow_empty_raises_witness :
    wellFormed { rows := 1, cols := 3, values := [], colIndices := [], rowPtr := [0, 0] } ∧
    repeatRow { rows := 1, cols := 3, values := [], colIndices := [], rowPtr := [0, 0] } 2 = none :=
  ⟨by decide, repeatRow_empty_raises _ 2 (by decide) rfl rfl⟩

/-! ## Row-Set Operations: `selectRows` (`mutil.py` lines 271-293) -/

/-- `selectRows(m, lo, hi)`: clamp `hi` to `rows(m)`, then copy rows
`lo..hi-1` with the index pointers translated by `jLo = indptr[lo]`.  The
loop writes row `lo+i`'s cells at `indptr[i] + j` with
`indptr[i] = m.indptr[lo+i] - jLo`; for a monotone `indptr` these writes
are contiguous and in order, so the copied rows concatenate. -/
def selectRows (m : CSR) (lo hi : ℕ) : CSR :=
  let hiC := if hi > m.rows then m.rows else hi
  let jLo := ptrAt m lo
  let jHi := ptrAt m hiC
  { rows := hiC - lo, cols := m.cols,
    values := (List.range (hiC - lo)).flatMap (fun i => valSlice m (lo + i)),
    colIndices := (List.range (hiC - lo)).flatMap (fun i => colSlice m (lo + i)),
    rowPtr := (List.range (hiC - lo)).map (fun i => ptrAt m (lo + i) - jLo) ++ [jHi - jLo] }

theorem rowPtr_eq (m : CSR) (hw : wellFormed m) :
    (List.range m.rows).map (ptrAt m) ++ [nnz m] = m.rowPtr := by
  obtain ⟨hlen, h0, hlast, -, -, -⟩ := hw
  apply List.ext_getElem
  · simp [hlen]
  · intro i h1 h2
    by_cases hc : i < m.rows
    · rw [List.getElem_append_left (by simpa using hc)]
      simp only [List.getElem_map, List.getElem_range]
      rw [ptrAt, List.getD_eq_getElem _ _ h2]
    · have hi : i = m.rows := by
        simp only [List.length_append, List.length_map, List.length_range,
          List.length_singleton] at h1
        omega
      subst hi
      rw [List.getElem_append_right (by simp)]
      simp only [List.length_map, List.length_range, List.getElem_singleton]
      rw [← hlast, ptrAt, List.getD_eq_getElem _ _ h2]

/-- C7.  `selectRows` clamps `hi` to `rows m`, produces `min hi (rows m) - lo`
rows starting with `rowPtr[0] = 0`, row `i` of the result is row `lo + i` of
`m`; and `selectRows m 0 (rows m)` is structurally identical to `m`. -/
theorem selectRows_spec (m : CSR) (lo hi : ℕ) (hw : wellFormed m)
    (hlo : lo ≤ min hi m.rows) :
    (selectRows m lo hi).rows = min hi m.rows - lo ∧
    (selectRows m lo hi).cols = m.cols ∧
    ptrAt (selectRows m lo hi) 0 = 0 ∧
    (∀ i < min hi m.rows - lo,
      rowEntries (selectRows m lo hi) i = rowEntries m (lo + i)) ∧
    selectRows m 0 m.rows = m := by
  have hhiC : (if hi > m.rows then m.rows else hi) = min hi m.rows := by
    split_ifs with h <;> omega
  have hmin : min hi m.rows ≤ m.rows := min_le_right _ _
  -- the translated index pointers of the result
  have hptr : ∀ k ≤ min hi m.rows - lo,
      ptrAt (selectRows m lo hi) k = ptrAt m (lo + k) - ptrAt m lo := by
    intro k hk
    show ((List.range ((if hi > m.rows then m.rows else hi) - lo)).map
        (fun i => ptrAt m (lo + i) - ptrAt m lo) ++
        [ptrAt m (if hi > m.rows then m.rows else hi) - ptrAt m lo]).getD k 0 = _
    rw [hhiC]
    by_cases hc : k < min hi m.rows - lo
    · rw [List.getD_eq_getElem _ _ (by simp; omega),
        List.getElem_append_left (by simpa using hc)]
      simp
    · have hk2 : k = min hi m.rows - lo := by omega
      subst hk2
      rw [List.getD_eq_getElem _ _ (by simp),
        List.getElem_append_right (by simp)]
      simp only [List.length_map, List.length_range, List.getElem_singleton]
      rw [show lo + (min hi m.rows - lo) = min hi m.rows by omega]
  refine ⟨?_, rfl, ?_, ?_, ?_⟩
  · show (if hi > m.rows then m.rows else hi) - lo = min hi m.rows - lo
    rw [hhiC]
  · rw [hptr 0 (by omega), Nat.add_zero, Nat.sub_self]
  · intro i hi2
    have hmono : ∀ k, lo + k ≤ m.rows → ∀ j ≤ k, ptrAt m (lo + j) ≤ ptrAt m (lo + k) :=
      fun k hk j hj => ptr_mono m hw (by omega) hk
    have hloi : lo + i + 1 ≤ m.rows := by omega
    rw [rowEntries, colSlice, valSlice, hptr i (by omega), hptr (i + 1) (by omega),
      show lo + (i + 1) = lo + i + 1 from rfl]
    have h1 : ptrAt m lo ≤ ptrAt m (lo + i) := ptr_mono m hw (by omega) (by omega)
    have h2 : ptrAt m (lo + i) ≤ ptrAt m (lo + i + 1) := ptr_mono m hw (by omega) hloi
    have hcoverC : (List.range i).flatMap (fun k => colSlice m (lo + k))
        = slice m.colIndices (ptrAt m lo) (ptrAt m (lo + i)) :=
      flatMap_slices m.colIndices (fun k => ptrAt m (lo + k)) i
        (fun k hk => ptr_mono m hw (by omega) (by omega))
    have hcoverV : (List.range i).flatMap (fun k => valSlice m (lo + k))
        = slice m.values (ptrAt m lo) (ptrAt m (lo + i)) :=
      flatMap_slices m.values (fun k => ptrAt m (lo + k)) i
        (fun k hk => ptr_mono m hw (by omega) (by omega))
    have hcolEq : slice (selectRows m lo hi).colIndices
        (ptrAt m (lo + i) - ptrAt m lo) (ptrAt m (lo + i + 1) - ptrAt m lo)
        = colSlice m (lo + i) := by
      show slice ((List.range ((if hi > m.rows then m.rows else hi) - lo)).flatMap
        (fun k => colSlice m (lo + k))) _ _ = _
      rw [hhiC]
      apply slice_flatMap_range (fun k => colSlice m (lo + k)) hi2
      · rw [hcoverC, slice_length (by rw [hw.2.2.2.1]; exact ptr_le_nnz m hw (by omega))]
      · rw [colSlice_length m hw (by omega)]
        omega
    have hvalEq : slice (selectRows m lo hi).values
        (ptrAt m (lo + i) - ptrAt m lo) (ptrAt m (lo + i + 1) - ptrAt m lo)
        = valSlice m (lo + i) := by
      show slice ((List.range ((if hi > m.rows then m.rows else hi) - lo)).flatMap
        (fun k => valSlice m (lo + k))) _ _ = _
      rw [hhiC]
      apply slice_flatMap_range (fun k => valSlice m (lo + k)) hi2
      · rw [hcoverV, slice_length (ptr_le_nnz m hw (by omega))]
      · rw [valSlice_length m hw (by omega)]
        omega
    rw [hcolEq, hvalEq, rowEntries]
  · -- identity: selectRows m 0 (rows m) = m
    obtain ⟨hlen, h0, hlast, hci, hchain, hcols⟩ := hw
    have hhiR : (if m.rows > m.rows then m.rows else m.rows) = m.rows := by
      split_ifs <;> rfl
    have hmono0 : ∀ k < m.rows, ptrAt m k ≤ ptrAt m (k + 1) := by
      intro k hk
      exact ptr_mono m ⟨hlen, h0, hlast, hci, hchain, hcols⟩ (by omega) (by omega)
    have hvalsEq : (List.range (m.rows - 0)).flatMap (fun i => valSlice m (0 + i))
        = m.values := by
      have hcover : (List.range m.rows).flatMap (fun i => valSlice m (0 + i))
          = slice m.values (ptrAt m (0 + 0)) (ptrAt m (0 + m.rows)) :=
        flatMap_slices m.values (fun k => ptrAt m (0 + k)) m.rows
          (fun k hk => ptr_mono m ⟨hlen, h0, hlast, hci, hchain, hcols⟩ (by omega) (by omega))
      rw [Nat.sub_zero, hcover]
      simp only [Nat.zero_add]
      rw [h0, hlast]
      exact slice_self m.values
    have hcolsEq : (List.range (m.rows - 0)).flatMap (fun i => colSlice m (0 + i))
        = m.colIndices := by
      have hcover : (List.range m.rows).flatMap (fun i => colSlice m (0 + i))
          = slice m.colIndices (ptrAt m (0 + 0)) (ptrAt m (0 + m.rows)) :=
        flatMap_slices m.colIndices (fun k => ptrAt m (0 + k)) m.rows
          (fun k hk => ptr_mono m ⟨hlen, h0, hlast, hci, hchain, hcols⟩ (by omega) (by omega))
      rw [Nat.sub_zero, hcover]
      simp only [Nat.zero_add]
      rw [h0, hlast, ← hci]
      exact slice_self m.colIndices
    have hptrEq : (List.range (m.rows - 0)).map (fun i => ptrAt m (0 + i) - ptrAt m 0) ++
        [ptrAt m m.rows - ptrAt m 0] = m.rowPtr := by
      rw [h0, hlast]
      simp only [Nat.sub_zero, Nat.zero_add]
      exact rowPtr_eq m ⟨hlen, h0, hlast, hci, hchain, hcols⟩
    show CSR.mk _ _ _ _ _ = m
    rw [hhiR]
    rw [hvalsEq]
    rw [hcolsEq]
    rw [hptrEq]
    rfl

/-- The 3×3 example matrix of spec scenario 1: rows `[1,0,5]`, `[2,0,10]`,
`[3,0,15]`. -/
def selM : CSR :=
  { rows := 3, cols := 3, values := [1, 5, 2, 10, 3, 15],
    colIndices := [0, 2, 0, 2, 0, 2], rowPtr := [0, 2, 4, 6] }

/-- C7, witness: `selectRows` on the concrete 3×3 matrix with `lo = 0`,
`hi = 3`. -/
theorem selectRows_spec_witness :
    wellFormed selM ∧ 0 ≤ min 3 selM.rows ∧ selectRows selM 0 3 = selM :=
  ⟨by decide, by decide,
    (selectRows_spec selM 0 3 (by decide) (by decide)).2.2.2.2⟩

/-! ## Lemmas about `fromRows` -/

theorem lensum_succ_cons (r : List (ℕ × ℚ)) (rest : List (List (ℕ × ℚ))) (k : ℕ) :
    lensum (r :: rest) (k + 1) = r.length + lensum rest k := by
  simp [lensum]

theorem slice_append_shift (A X : List α) (a b : ℕ) :
    slice (A ++ X) (A.length + a) (A.length + b) = slice X a b := by
  unfold slice
  rw [List.drop_append, show A.length + b - (A.length + a) = b - a by omega]

theorem slice_flatMap_lensum (g : List (ℕ × ℚ) → List α)
    (hg : ∀ r, (g r).length = r.length) (rs : List (List (ℕ × ℚ))) :
    ∀ {i : ℕ}, i < rs.length →
      slice (rs.flatMap g) (lensum rs i) (lensum rs (i + 1)) = g (rs.getD i []) := by
  induction rs with
  | nil => intro i hi; cases hi
  | cons r rest ih =>
      intro i hi
      cases i with
      | zero =>
          show slice (g r ++ rest.flatMap g) (lensum (r :: rest) 0) (lensum (r :: rest) 1) = g r
          rw [show lensum (r :: rest) 0 = 0 from rfl, lensum_succ_cons,
            show lensum rest 0 = 0 from rfl, Nat.add_zero]
          unfold slice
          rw [Nat.sub_zero, List.drop_zero, ← hg r, List.take_left]
      | succ k =>
          show slice (g r ++ rest.flatMap g) (lensum (r :: rest) (k + 1))
            (lensum (r :: rest) (k + 2)) = g ((r :: rest).getD (k + 1) [])
          rw [lensum_succ_cons, show lensum (r :: rest) (k + 2) =
              r.length + lensum rest (k + 1) from lensum_succ_cons r rest (k + 1),
            ← hg r, slice_append_shift, List.getD_cons_succ]
          exact ih (by simpa using hi)

theorem flatMap_map_list (f : β → γ) (g : γ → List α) (l : List β) :
    (l.map f).flatMap g = l.flatMap (fun b => g (f b)) := by
  induction l with
  | nil => rfl
  | cons x xs ih => simp only [List.map_cons, List.flatMap_cons, ih]

theorem flatMap_congr_mem (l : List β) (f g : β → List α) (h : ∀ b ∈ l, f b = g b) :
    l.flatMap f = l.flatMap g := by
  induction l with
  | nil => rfl
  | cons x xs ih =>
      simp only [List.flatMap_cons, h x (by simp)]
      rw [ih (fun b hb => h b (by simp [hb]))]

theorem ptrAt_fromRows (rows cols : ℕ) (rs : List (List (ℕ × ℚ))) {k : ℕ}
    (hk : k ≤ rs.length) : ptrAt (fromRows rows cols rs) k = lensum rs k :=
  getD_map_range _ _ (by omega)

theorem rowEntries_fromRows (rows cols : ℕ) (rs : List (List (ℕ × ℚ))) {i : ℕ}
    (hi : i < rs.length) : rowEntries (fromRows rows cols rs) i = rs.getD i [] := by
  rw [rowEntries, colSlice, valSlice, ptrAt_fromRows rows cols rs (by omega),
    ptrAt_fromRows rows cols rs (by omega)]
  have hF : slice (fromRows rows cols rs).colIndices (lensum rs i) (lensum rs (i + 1))
      = (rs.getD i []).map Prod.fst :=
    slice_flatMap_lensum (fun r => r.map Prod.fst) (by simp) rs hi
  have hV : slice (fromRows rows cols rs).values (lensum rs i) (lensum rs (i + 1))
      = (rs.getD i []).map Prod.snd :=
    slice_flatMap_lensum (fun r => r.map Prod.snd) (by simp) rs hi
  rw [hF, hV, List.zip_map']
  simp

/-- `rowPtr` of a well-formed matrix is the table of its own `ptrAt`. -/
theorem rowPtr_eq_map (m : CSR) (hw : wellFormed m) :
    (List.range (m.rows + 1)).map (ptrAt m) = m.rowPtr := by
  obtain ⟨hlen, -, -, -, -, -⟩ := hw
  apply List.ext_getElem
  · simp [hlen]
  · intro i h1 h2
    simp only [List.getElem_map, List.getElem_range]
    rw [ptrAt, List.getD_eq_getElem _ _ h2]

theorem rowEntries_length (m : CSR) (hw : wellFormed m) {i : ℕ} (hi : i < m.rows) :
    (rowEntries m i).length = ptrAt m (i + 1) - ptrAt m i := by
  rw [rowEntries, List.length_zip, colSlice_length m hw hi, valSlice_length m hw hi,
    Nat.min_self]

/-- Reassembling a well-formed matrix from its own rows gives it back. -/
theorem fromRows_rowEntries (m : CSR) (hw : wellFormed m) :
    fromRows m.rows m.cols ((List.range m.rows).map (fun i => rowEntries m i)) = m := by
  obtain ⟨hlen, h0, hlast, hci, hchain, hcols⟩ := hw
  have hwx : wellFormed m := ⟨hlen, h0, hlast, hci, hchain, hcols⟩
  have hlensum : ∀ k ≤ m.rows,
      lensum ((List.range m.rows).map (fun i => rowEntries m i)) k = ptrAt m k := by
    intro k hk
    induction k with
    | zero => rw [h0]; rfl
    | succ j ihj =>
        have hj : j < m.rows := by omega
        have hstep : lensum ((List.range m.rows).map (fun i => rowEntries m i)) (j + 1)
            = lensum ((List.range m.rows).map (fun i => rowEntries m i)) j
              + (rowEntries m j).length := by
          rw [lensum, List.take_succ, List.map_append, List.sum_append]
          have hjl : j < ((List.range m.rows).map (fun i => rowEntries m i)).length := by
            simpa using hj
          rw [List.getElem?_eq_getElem hjl]
          simp only [List.getElem_map, List.getElem_range, Option.toList_some,
            List.map_cons, List.map_nil, List.sum_cons, List.sum_nil]
          rw [lensum]
          omega
        rw [hstep, ihj (by omega), rowEntries_length m hwx hj]
        have := ptr_mono m hwx (show j ≤ j + 1 by omega) (show j + 1 ≤ m.rows by omega)
        omega
  have hcoverV : (List.range m.rows).flatMap (fun i => valSlice m i)
      = slice m.values (ptrAt m 0) (ptrAt m m.rows) :=
    flatMap_slices m.values (ptrAt m) m.rows
      (fun k hk => ptr_mono m hwx (by omega) (by omega))
  have hcoverC : (List.range m.rows).flatMap (fun i => colSlice m i)
      = slice m.colIndices (ptrAt m 0) (ptrAt m m.rows) :=
    flatMap_slices m.colIndices (ptrAt m) m.rows
      (fun k hk => ptr_mono m hwx (by omega) (by omega))
  have hVflat : ((List.range m.rows).map (fun i => rowEntries m i)).flatMap
      (fun r => r.map Prod.snd) = m.values := by
    rw [flatMap_map_list]
    have heach : ∀ i ∈ List.range m.rows,
        (rowEntries m i).map Prod.snd = valSlice m i := by
      intro i hi
      rw [rowEntries]
      apply List.map_snd_zip
      rw [colSlice_length m hwx (by simpa using hi), valSlice_length m hwx (by simpa using hi)]
    rw [flatMap_congr_mem _ _ _ heach, hcoverV, h0, hlast]
    exact slice_self m.values
  have hCflat : ((List.range m.rows).map (fun i => rowEntries m i)).flatMap
      (fun r => r.map Prod.fst) = m.colIndices := by
    rw [flatMap_map_list]
    have heach : ∀ i ∈ List.range m.rows,
        (rowEntries m i).map Prod.fst = colSlice m i := by
      intro i hi
      rw [rowEntries]
      apply List.map_fst_zip
      rw [colSlice_length m hwx (by simpa using hi), valSlice_length m hwx (by simpa using hi)]
    rw [flatMap_congr_mem _ _ _ heach, hcoverC, h0, hlast, ← hci]
    exact slice_self m.colIndices
  have hRowPtr : (List.range
        (((List.range m.rows).map (fun i => rowEntries m i)).length + 1)).map
      (lensum ((List.range m.rows).map (fun i => rowEntries m i))) = m.rowPtr := by
    simp only [List.length_map, List.length_range]
    have hc : ∀ k ∈ List.range (m.rows + 1),
        lensum ((List.range m.rows).map (fun i => rowEntries m i)) k = ptrAt m k := by
      intro k hk
      have := List.mem_range.mp hk
      exact hlensum k (by omega)
    rw [List.map_congr_left hc, rowPtr_eq_map m hwx]
  show CSR.mk _ _ _ _ _ = m
  rw [hVflat, hCflat, hRowPtr]

/-! ## Row-Set Operations: `shuffleRows` (`mutil.py` lines 248-269) -/

/-- Sort a row's `(column, value)` pairs by column index, as
`result.sort_indices()` does per row.  (On the duplicate-free rows of a
canonical matrix every comparison sort agrees with this insertion sort.) -/
def sortRow (l : List (ℕ × ℚ)) : List (ℕ × ℚ) :=
  l.insertionSort (fun a b => a.1 ≤ b.1)

/-- `result.sort_indices()`: re-sort each row's entries by column. -/
def sortIndices (m : CSR) : CSR :=
  fromRows m.rows m.cols ((List.range m.rows).map (fun i => sortRow (rowEntries m i)))

/-- `shuffleRows(m, shuffledRowNums)` (`mutil.py` lines 248-269) with an
explicitly given row-number list (when `shuffledRowNums=None` the source
first draws a uniformly random permutation; randomness is outside this
model).  The loop copies row `perm[i]`'s values and column indices to the
positions `[indptr[i], indptr[i+1])` of the fresh arrays, `indptr` being
the cumulative permuted row lengths; for a permutation these writes tile
the whole arrays in order, so the copied rows concatenate.  The final
`result.sort_indices()` re-sorts each row by column. -/
def shuffleRows (m : CSR) (perm : List ℕ) : CSR :=
  sortIndices (fromRows m.rows m.cols
    ((List.range m.rows).map (fun i => rowEntries m (perm.getD i 0))))

/-- C8.  `shuffleRows m perm` keeps the shape, row `i` of the result is row
`perm[i]` of `m` re-sorted by column; and on the identity permutation of an
already column-sorted matrix it returns `m` itself. -/
theorem shuffleRows_spec (m : CSR) (perm : List ℕ) (hw : wellFormed m)
    (hplen : perm.length = m.rows) (hmem : ∀ r ∈ perm, r < m.rows) :
    (shuffleRows m perm).rows = m.rows ∧ (shuffleRows m perm).cols = m.cols ∧
    (∀ i < m.rows,
      rowEntries (shuffleRows m perm) i = sortRow (rowEntries m (perm.getD i 0))) ∧
    (rowsSorted m → shuffleRows m (List.range m.rows) = m) := by
  refine ⟨rfl, rfl, ?_, ?_⟩
  · intro i hi
    rw [shuffleRows]
    set M := fromRows m.rows m.cols
      ((List.range m.rows).map (fun j => rowEntries m (perm.getD j 0))) with hMdef
    have hMr : M.rows = m.rows := rfl
    rw [sortIndices]
    rw [rowEntries_fromRows _ _ _ (by simp [hMr, hi]),
      getD_map_range _ _ (show i < M.rows from by rw [hMr]; exact hi)]
    rw [hMdef, rowEntries_fromRows _ _ _ (by simpa using hi), getD_map_range _ _ hi]
  · intro hs
    rw [shuffleRows]
    have hInner : (List.range m.rows).map
        (fun j => rowEntries m ((List.range m.rows).getD j 0))
        = (List.range m.rows).map (fun j => rowEntries m j) := by
      apply List.map_congr_left
      intro j hj
      congr 1
      rw [List.getD_eq_getElem _ _ (by simpa using hj)]
      simp
    rw [hInner, fromRows_rowEntries m hw, sortIndices]
    have hSorted : (List.range m.rows).map (fun i => sortRow (rowEntries m i))
        = (List.range m.rows).map (fun i => rowEntries m i) := by
      apply List.map_congr_left
      intro j hj
      simp only [sortRow]
      exact List.Sorted.insertionSort_eq (hs j (by simpa using hj))
    rw [hSorted, fromRows_rowEntries m hw]

/-- C8, witness: the identity permutation on the concrete (column-sorted)
2×3 matrix `wrsM2`. -/
theorem shuffleRows_spec_witness :
    wellFormed wrsM2 ∧ (List.range wrsM2.rows).length = wrsM2.rows ∧
    (∀ r ∈ List.range wrsM2.rows, r < wrsM2.rows) ∧
    (rowsSorted wrsM2 → shuffleRows wrsM2 (List.range wrsM2.rows) = wrsM2) :=
  ⟨by decide, by decide, by decide,
    (shuffleRows_spec wrsM2 (List.range wrsM2.rows) (by decide) (by decide)
      (by decide)).2.2.2⟩

/-! ## Dense Bridge round trip (C6) -/

/-- Sum of the values a `(column, value)` list stores at column `c`. -/
def colSum (entries : List (ℕ × ℚ)) (c : ℕ) : ℚ :=
  ((entries.filter (fun e => e.1 = c)).map Prod.snd).sum

theorem colSum_nil (c : ℕ) : colSum [] c = 0 := rfl

theorem colSum_cons (e : ℕ × ℚ) (es : List (ℕ × ℚ)) (c : ℕ) :
    colSum (e :: es) c = (if e.1 = c then e.2 else 0) + colSum es c := by
  by_cases h : e.1 = c
  · simp [colSum, List.filter_cons, h]
  · simp [colSum, List.filter_cons, h]

theorem colSum_eq_zero {es : List (ℕ × ℚ)} {c : ℕ} (h : ∀ x ∈ es, x.1 ≠ c) :
    colSum es c = 0 := by
  induction es with
  | nil => rfl
  | cons e es ih =>
      rw [colSum_cons, if_neg (h e (by simp)), ih (fun x hx => h x (by simp [hx]))]
      simp

/-- Scanning the dense band of a strictly column-sorted, bounded entry list
column by column and keeping the nonzero cells recovers exactly the nonzero
entries. -/
theorem roundTripRow :
    ∀ (width lo : ℕ) (entries : List (ℕ × ℚ)),
      entries.Pairwise (fun a b => a.1 < b.1) →
      (∀ e ∈ entries, lo ≤ e.1 ∧ e.1 < lo + width) →
      ((List.range width).map
          (fun j => ((j + lo : ℕ), colSum entries (j + lo)))).filter
          (fun p => p.2 ≠ 0)
        = entries.filter (fun e => e.2 ≠ 0) := by
  intro width
  induction width with
  | zero =>
      intro lo entries hp hb
      cases entries with
      | nil => rfl
      | cons e es =>
          have := hb e (by simp)
          omega
  | succ w ih =>
      intro lo entries hp hb
      rw [List.range_succ_eq_map, List.map_cons, List.map_map]
      have htail : (List.range w).map
          ((fun j => ((j + lo : ℕ), colSum entries (j + lo))) ∘ Nat.succ)
          = (List.range w).map
            (fun j => ((j + (lo + 1) : ℕ), colSum entries (j + (lo + 1)))) := by
        apply List.map_congr_left
        intro j hj
        simp only [Function.comp_apply]
        rw [show j.succ + lo = j + (lo + 1) by omega]
      rw [htail]
      rcases entries with _ | ⟨⟨ec, ev⟩, es⟩
      · have htl := ih (lo + 1) [] (by simp) (by simp)
        simp only [colSum_nil] at htl ⊢
        simp [List.filter_cons, htl]
      · have hb' := hb (ec, ev) (by simp)
        obtain ⟨hbs, hp'⟩ := List.pairwise_cons.mp hp
        by_cases he : ec = lo
        · have hhead : colSum ((ec, ev) :: es) (0 + lo) = ev := by
            rw [show (0 : ℕ) + lo = lo by omega, colSum_cons, if_pos he,
              colSum_eq_zero (fun x hx => by have := hbs x hx; simp at this ⊢; omega),
              add_zero]
          have htail2 : (List.range w).map
              (fun j => ((j + (lo + 1) : ℕ), colSum ((ec, ev) :: es) (j + (lo + 1))))
              = (List.range w).map
                (fun j => ((j + (lo + 1) : ℕ), colSum es (j + (lo + 1)))) := by
            apply List.map_congr_left
            intro j hj
            rw [colSum_cons, if_neg (by simp; omega), zero_add]
          have hes := ih (lo + 1) es hp'
            (fun x hx => by
              have h1 := hbs x hx
              have h2 := hb x (by simp [hx])
              simp at h1
              omega)
          rw [htail2, hhead, show ((0 : ℕ) + lo) = ec by omega,
            List.filter_cons, List.filter_cons, hes]
        · have hlt : lo < ec := by omega
          have hhead0 : colSum ((ec, ev) :: es) (0 + lo) = 0 := by
            apply colSum_eq_zero
            intro x hx
            rcases List.mem_cons.mp hx with rfl | hx'
            · simp
              omega
            · have := hbs x hx'
              simp at this ⊢
              omega
          have hesAll := ih (lo + 1) ((ec, ev) :: es) hp
            (fun x hx => by
              rcases List.mem_cons.mp hx with rfl | hx'
              · simp
                omega
              · have h1 := hbs x hx'
                have h2 := hb x (by simp [hx'])
                simp at h1
                omega)
          rw [hhead0, List.filter_cons, if_neg (by simp)]
          exact hesAll

theorem zip_self (l : List α) : l.zip l = l.map (fun a => (a, a)) := by
  induction l with
  | nil => rfl
  | cons x xs ih => simp [ih]

theorem enum_map_range (g : ℕ → α) (n : ℕ) :
    ((List.range n).map g).enum = (List.range n).map (fun j => (j, g j)) := by
  rw [List.enum_eq_zip_range, show ((List.range n).map g).length = n by simp,
    List.zip_map_right, zip_self, List.map_map]
  apply List.map_congr_left
  intro j hj
  rfl

theorem getD_map_list (f : α → β) (l : List α) (dα : α) (dβ : β) {i : ℕ}
    (h : i < l.length) : (l.map f).getD i dβ = f (l.getD i dα) := by
  rw [List.getD_eq_getElem _ _ (by simpa using h), List.getD_eq_getElem _ _ h,
    List.getElem_map]

/-- C6.  For every well-formed, strictly column-sorted matrix whose band
qualifies for densification, `undensify` applied to the result of `densify`
reproduces the matrix's shape and, row by row, exactly its stored entries
with value-zero entries eliminated (so the nonzero pattern and values are
reproduced exactly). -/
theorem densify_undensify (mat : CSR) (k : ℕ) (hw : wellFormed mat)
    (hs : rowsStrictSorted mat) (D : List (List ℚ)) (lo c : ℕ)
    (hd : densify mat k = .dense D lo c) :
    (undensify D lo c).rows = mat.rows ∧ (undensify D lo c).cols = mat.cols ∧
    ∀ i < mat.rows, rowEntries (undensify D lo c) i
      = (rowEntries mat i).filter (fun e => e.2 ≠ 0) := by
  have hne : mat.colIndices ≠ [] := by
    intro h
    rw [densify, if_pos h] at hd
    exact absurd hd (by simp)
  rw [densify, if_neg hne] at hd
  by_cases hc : (listMaxN mat.colIndices - listMinN mat.colIndices) * mat.rows >
      (mat.rows + 1 + 2 * nnz mat) * k
  · rw [if_pos hc] at hd
    exact absurd hd (by simp)
  rw [if_neg hc] at hd
  cases hd
  refine ⟨by simp [undensify, fromRows, denseBand], rfl, ?_⟩
  intro i hi
  have hbnd : ∀ e ∈ rowEntries mat i,
      listMinN mat.colIndices ≤ e.1 ∧
        e.1 < listMinN mat.colIndices +
          (listMaxN mat.colIndices - listMinN mat.colIndices + 1) := by
    intro e he
    have hm := mem_rowEntries_col_mem mat he
    have h1 := listMinN_le hm
    have h2 := le_listMaxN hm
    omega
  rw [undensify, rowEntries_fromRows _ _ _ (by simp [denseBand, hi]),
    getD_map_list _ _ [] _ (by simp [denseBand, hi]),
    show (denseBand mat (listMinN mat.colIndices)
        (listMaxN mat.colIndices - listMinN mat.colIndices + 1)).getD i []
      = (List.range (listMaxN mat.colIndices - listMinN mat.colIndices + 1)).map
          (fun j => (((rowEntries mat i).filter
            (fun e => e.1 - listMinN mat.colIndices = j)).map Prod.snd).sum)
      from getD_map_range _ _ hi]
  have hg : (List.range (listMaxN mat.colIndices - listMinN mat.colIndices + 1)).map
      (fun j => (((rowEntries mat i).filter
        (fun e => e.1 - listMinN mat.colIndices = j)).map Prod.snd).sum)
      = (List.range (listMaxN mat.colIndices - listMinN mat.colIndices + 1)).map
        (fun j => colSum (rowEntries mat i) (j + listMinN mat.colIndices)) := by
    apply List.map_congr_left
    intro j hj
    rw [colSum]
    congr 2
    apply List.filter_congr
    intro e he
    have := (hbnd e he).1
    exact decide_eq_decide.mpr (by omega)
  rw [hg, enum_map_range, List.filter_map, List.map_map]
  have hrt := roundTripRow (listMaxN mat.colIndices - listMinN mat.colIndices + 1)
    (listMinN mat.colIndices) (rowEntries mat i) (hs i hi) hbnd
  rw [List.filter_map] at hrt
  rw [← hrt]
  have hq : (List.range (listMaxN mat.colIndices - listMinN mat.colIndices + 1)).filter
      ((fun p => decide (p.2 ≠ 0)) ∘
        (fun j => (j, colSum (rowEntries mat i) (j + listMinN mat.colIndices))))
      = (List.range (listMaxN mat.colIndices - listMinN mat.colIndices + 1)).filter
        ((fun p => decide (p.2 ≠ 0)) ∘
          (fun j => ((j + listMinN mat.colIndices : ℕ),
            colSum (rowEntries mat i) (j + listMinN mat.colIndices)))) :=
    List.filter_congr (fun j hj => rfl)
  rw [hq]
  apply List.map_congr_left
  intro j hj
  rfl

/-- A 2×3 well-formed, strictly column-sorted matrix whose band qualifies
for densification (`denseSize = 2 ≤ 3 × sparseSize`). -/
def rtM : CSR :=
  { rows := 2, cols := 3, values := [1, 2, 3], colIndices := [0, 1, 1],
    rowPtr := [0, 2, 3] }

/-- C6, witness: the round trip on the concrete matrix `rtM`. -/
theorem densify_undensify_witness :
    wellFormed rtM ∧ rowsStrictSorted rtM ∧
    ((undensify [[1, 2], [0, 3]] 0 3).rows = rtM.rows ∧
      (undensify [[1, 2], [0, 3]] 0 3).cols = rtM.cols ∧
      ∀ i < rtM.rows, rowEntries (undensify [[1, 2], [0, 3]] 0 3) i
        = (rowEntries rtM i).filter (fun e => e.2 ≠ 0)) :=
  ⟨by decide, by decide,
    densify_undensify rtM 3 (by decide) (by decide) [[1, 2], [0, 3]] 0 3
      (by
        rw [densify, if_neg (by decide), if_neg (by decide)]
        norm_num [denseBand, listMaxN, listMinN, rowEntries, colSlice, valSlice,
          slice, ptrAt, rtM, List.range_succ, List.filter_cons])⟩

/-! ## Softmax Kernel, sparse fallback path (`softmax`, `mutil.py` 148-170)

`softmax(db, mat)` builds `result = repeat(db.nullMatrix(1)*nullEpsilon,
numRows(mat)) + mat` (using the external `matrixdb` store and scipy matrix
addition), tries `densify(result)`, and — when densification is rejected —
runs `alterMatrixRows(result, softMaxAlteration)` on it and returns it.
This section models that fallback branch applied to the already-built
`result` matrix.  `math.exp` is modelled by an abstract `e : ℚ → ℚ`: IEEE
`exp` never returns a negative value, returns `1` at `0`, can underflow to
exactly `0.0` for very negative arguments (the `NP.seterr` policy ignores
underflow), and is nonzero at `nullEpsilon = -10`. -/

/-- `softMaxAlteration(data, lo, hi, _)` acting on one row slice: find the
row maximum, exponentiate the shifted values, normalize by the row sum, and
floor any exact `0.0` quotient to `e (-10)` (`math.exp(nullEpsilon)`). -/
def softMaxRow (e : ℚ → ℚ) (row : List ℚ) : List ℚ :=
  let rowMax := listMaxQ row
  let shifted := row.map (fun v => e (v - rowMax))
  let rowNorm := shifted.sum
  shifted.map (fun v => if v / rowNorm = 0 then e (-10) else v / rowNorm)

/-- The sparse fallback branch of `softmax` (`mutil.py` lines 168-170):
`alterMatrixRows(result, softMaxAlteration)`. -/
def softmaxSparse (e : ℚ → ℚ) (m : CSR) : CSR :=
  alterMatrixRows m (fun vals _ => softMaxRow e vals)

/-- Running the alteration loop over rows given by a monotone pointer
function rewrites each row slice with `f` and leaves nothing else: the
in-place surgery is equivalent to concatenating the per-row results. -/
theorem alterRows_eq (f : List ℚ → List ℕ → List ℚ)
    (hf : ∀ v idx, (f v idx).length = v.length) (indices : List ℕ) :
    ∀ (n : ℕ) (p : ℕ → ℕ) (data : List ℚ),
      (∀ i < n, p i ≤ p (i + 1)) → p n ≤ data.length →
      alterRows f indices data ((List.range n).map (fun i => (p i, p (i + 1))))
        = data.take (p 0) ++
          (List.range n).flatMap
            (fun i => f (slice data (p i) (p (i + 1)))
              (slice indices (p i) (p (i + 1)))) ++
          data.drop (p n) := by
  intro n
  induction n with
  | zero =>
      intro p data hmono hlen
      simp only [List.range_zero, List.map_nil, List.flatMap_nil, List.append_nil]
      rw [alterRows, List.take_append_drop]
  | succ w ih =>
      intro p data hmono hlen
      have h01 : p 0 ≤ p 1 := hmono 0 (by omega)
      have h0n : p 0 ≤ p (w + 1) := step_mono hmono (by omega) (by omega)
      have h1n : p 1 ≤ p (w + 1) := step_mono hmono (by omega) (by omega)
      have h0len : p 0 ≤ data.length := le_trans h0n hlen
      have h1len : p 1 ≤ data.length := le_trans h1n hlen
      -- the altered data after the first row
      have hBlen : (f (slice data (p 0) (p 1)) (slice indices (p 0) (p 1))).length
          = p 1 - p 0 := by
        rw [hf, slice_length h1len]
      have hPlen : (data.take (p 0) ++
          f (slice data (p 0) (p 1)) (slice indices (p 0) (p 1))).length = p 1 := by
        rw [List.length_append, List.length_take, hBlen]
        omega
      have hdata' : alterSlice f data indices (p 0) (p 1)
          = (data.take (p 0) ++ f (slice data (p 0) (p 1)) (slice indices (p 0) (p 1)))
            ++ data.drop (p 1) := by
        rw [alterSlice, List.append_assoc]
      -- dropping past p 1 in the altered data is dropping in the original
      have hdrop : ∀ a, p 1 ≤ a → (alterSlice f data indices (p 0) (p 1)).drop a
          = data.drop a := by
        intro a ha
        rw [hdata', List.drop_append_eq_append_drop,
          List.drop_eq_nil_of_le (by rw [hPlen]; omega), List.nil_append,
          List.drop_drop, hPlen, show p 1 + (a - p 1) = a by omega]
      have hslice : ∀ a b, p 1 ≤ a →
          slice (alterSlice f data indices (p 0) (p 1)) a b = slice data a b := by
        intro a b ha
        rw [slice, slice, hdrop a ha]
      have htake : (alterSlice f data indices (p 0) (p 1)).take (p 1)
          = data.take (p 0) ++ f (slice data (p 0) (p 1)) (slice indices (p 0) (p 1)) := by
        rw [hdata']
        exact List.take_left' hPlen
      have hlen' : (alterSlice f data indices (p 0) (p 1)).length = data.length := by
        rw [hdata', List.length_append, hPlen, List.length_drop]
        omega
      -- peel the first range off the loop
      rw [List.range_succ_eq_map, List.map_cons, List.map_map, alterRows]
      have hmapshift : (List.range w).map
          ((fun i => (p i, p (i + 1))) ∘ Nat.succ)
          = (List.range w).map (fun i => (p (i + 1), p (i + 1 + 1))) := rfl
      rw [hmapshift]
      have := ih (fun i => p (i + 1)) (alterSlice f data indices (p 0) (p 1))
        (fun i hi => hmono (i + 1) (by omega)) (by rw [hlen']; exact hlen)
      rw [this, htake, hdrop (p (w + 1)) h1n]
      have hflatshift : (List.range w).flatMap
          (fun i => f (slice (alterSlice f data indices (p 0) (p 1)) (p (i + 1)) (p (i + 1 + 1)))
            (slice indices (p (i + 1)) (p (i + 1 + 1))))
          = (List.range w).flatMap
            (fun i => f (slice data (p (i + 1)) (p (i + 1 + 1)))
              (slice indices (p (i + 1)) (p (i + 1 + 1)))) := by
        apply flatMap_congr_mem
        intro j hj
        have hjw : j < w := List.mem_range.mp hj
        rw [hslice _ _ (step_mono hmono (by omega) (by omega : j + 1 ≤ w + 1))]
      rw [hflatshift]
      simp only [List.flatMap_cons, flatMap_map_list, Nat.zero_add,
        Nat.succ_eq_add_one, List.append_assoc]

/-- The values array of the sparse-path softmax result: each row slice
rewritten by `softMaxRow`. -/
theorem softmaxSparse_values (e : ℚ → ℚ) (m : CSR) (hw : wellFormed m) :
    (softmaxSparse e m).values
      = (List.range m.rows).flatMap (fun i => softMaxRow e (valSlice m i)) := by
  obtain ⟨hlen, h0, hlast, hci, hchain, hcols⟩ := hw
  have hwx : wellFormed m := ⟨hlen, h0, hlast, hci, hchain, hcols⟩
  show alterRows (fun vals _ => softMaxRow e vals) m.colIndices m.values (rowRanges m) = _
  rw [rowRanges, alterRows_eq _ (by intro v idx; simp [softMaxRow]) _ m.rows (ptrAt m)
    m.values (fun i hi => ptr_mono m hwx (by omega) (by omega))
    (by rw [hlast]; exact le_refl _),
    h0, hlast, List.take_zero]
  simp only [nnz, List.drop_length, List.nil_append, List.append_nil, valSlice]

/-- C4.  When densification of the softmax input is rejected, the fallback
rewrites each row slice in place — `exp`-shift by the row max, normalize by
the row sum, floor exact zeros to `e (-10)` — preserving shape, column
indices and row pointers, and no stored value of the result is exactly
zero. -/
theorem softmax_sparse_path (e : ℚ → ℚ) (m : CSR) (hw : wellFormed m)
    (hdens : densify m 3 = .tooLarge)
    (hrows : ∀ i < m.rows, ptrAt m i < ptrAt m (i + 1))
    (he : e (-10) ≠ 0) :
    (softmaxSparse e m).rows = m.rows ∧ (softmaxSparse e m).cols = m.cols ∧
    (softmaxSparse e m).colIndices = m.colIndices ∧
    (softmaxSparse e m).rowPtr = m.rowPtr ∧
    (∀ i < m.rows, valSlice (softmaxSparse e m) i = softMaxRow e (valSlice m i)) ∧
    ∀ v ∈ (softmaxSparse e m).values, v ≠ 0 := by
  obtain ⟨hlen, h0, hlast, hci, hchain, hcols⟩ := hw
  have hwx : wellFormed m := ⟨hlen, h0, hlast, hci, hchain, hcols⟩
  have hval := softmaxSparse_values e m hwx
  have hflen : ∀ i ≤ m.rows,
      ((List.range i).flatMap (fun j => softMaxRow e (valSlice m j))).length
        = ptrAt m i := by
    intro i hi
    induction i with
    | zero => simpa using h0.symm
    | succ k ihk =>
        rw [List.range_succ, List.flatMap_append, List.length_append,
          ihk (by omega)]
        simp only [List.flatMap_cons, List.flatMap_nil, List.append_nil]
        have hsl : (softMaxRow e (valSlice m k)).length = ptrAt m (k + 1) - ptrAt m k := by
          simp only [softMaxRow, List.length_map]
          exact valSlice_length m hwx (by omega)
        rw [hsl]
        have := ptr_mono m hwx (show k ≤ k + 1 by omega) (show k + 1 ≤ m.rows by omega)
        omega
  refine ⟨rfl, rfl, rfl, rfl, ?_, ?_⟩
  · intro i hi
    have hp1 : ptrAt (softmaxSparse e m) i = ptrAt m i := rfl
    have hp2 : ptrAt (softmaxSparse e m) (i + 1) = ptrAt m (i + 1) := rfl
    rw [valSlice, hp1, hp2, hval]
    apply slice_flatMap_range _ hi
    · exact (hflen i (by omega)).symm
    · have hsl : (softMaxRow e (valSlice m i)).length = ptrAt m (i + 1) - ptrAt m i := by
        simp only [softMaxRow, List.length_map]
        exact valSlice_length m hwx hi
      rw [hsl]
      have := ptr_mono m hwx (show i ≤ i + 1 by omega) (show i + 1 ≤ m.rows by omega)
      omega
  · intro v hv
    rw [hval] at hv
    rcases List.mem_flatMap.mp hv with ⟨j, -, hvj⟩
    rw [softMaxRow] at hvj
    rcases List.mem_map.mp hvj with ⟨u, -, rfl⟩
    by_cases hz : u / (List.map (fun v => e (v - listMaxQ (valSlice m j))) (valSlice m j)).sum = 0
    · rw [if_pos hz]
      exact he
    · rw [if_neg hz]
      exact hz

/-- C4, witness: on the wide matrix `wideMat` (densification rejected, every
row nonempty) with the constant-one stand-in for `exp`. -/
theorem softmax_sparse_path_witness :
    wellFormed wideMat ∧ densify wideMat 3 = .tooLarge ∧
    (∀ i < wideMat.rows, ptrAt wideMat i < ptrAt wideMat (i + 1)) ∧
    (fun _ : ℚ => (1 : ℚ)) (-10) ≠ 0 ∧
    ∀ v ∈ (softmaxSparse (fun _ => 1) wideMat).values, v ≠ 0 :=
  ⟨by decide, by decide, by decide, by norm_num,
    (softmax_sparse_path (fun _ => 1) wideMat (by decide) (by decide) (by decide)
      (by norm_num)).2.2.2.2.2⟩

end Mutil

